import Mathlib

/-!
Shallow embedding of the jobs-scraper repository (three script variants:
`src/index.js`, `src/unnamed/part_000`, `src/unnamed/part_001`) and proofs
about the claims of its specification.

Strings are modelled by Lean `String`/`List Char`; JS `\s` whitespace is
modelled by `Char.isWhitespace`; timestamps (ISO strings ordered
lexicographically, hence chronologically) are modelled by `Nat`.
-/

namespace JobsScraper

/-- Whitespace test used throughout (model of the JS `\s` class on the
characters the scraper meets). -/
def ws (c : Char) : Bool := c.isWhitespace

/-- Model of `String.prototype.replace(/\s+/g, ' ')`: every maximal run of
whitespace becomes a single space.  The Boolean state records whether the
previous character was part of a whitespace run (whose single `' '` has
already been emitted). -/
def collapseAux : Bool → List Char → List Char
  | _, [] => []
  | prevWs, c :: cs =>
    if ws c then
      if prevWs then collapseAux true cs
      else ' ' :: collapseAux true cs
    else c :: collapseAux false cs

/-- `replace(/\s+/g, ' ')` on a character list. -/
def collapseWS (l : List Char) : List Char := collapseAux false l

/-- Model of `String.prototype.trim()` on a character list: drop whitespace
from both ends. -/
def trimChars (l : List Char) : List Char :=
  List.rdropWhile ws (l.dropWhile ws)

/-- `trim()` on a `String`. -/
def jsTrimStr (s : String) : String := String.mk (trimChars s.data)

/-- The character-list core of `norm` / `normaliseText`:
`replace(/\s+/g, ' ').trim()`. -/
def normChars (l : List Char) : List Char :=
  List.rdropWhile ws ((collapseWS l).dropWhile ws)

/-- `norm` on an actual string argument. -/
def normStr (s : String) : String := String.mk (normChars s.data)

/-- `const norm = s => (s || '').replace(/\s+/g, ' ').trim()` (identical as
`normaliseText` in `src/index.js`); `none` models a `null`/`undefined`
argument, which `(s || '')` turns into the empty string. -/
def norm (s : Option String) : String := normStr (s.getD "")

/-- Model of JS `String.prototype.split(',')` (single-character separator,
no limit): `"" ↦ [""]`, `"a,b," ↦ ["a","b",""]`. -/
def splitComma : List Char → List (List Char)
  | [] => [[]]
  | c :: cs =>
    if c = ',' then [] :: splitComma cs
    else
      match splitComma cs with
      | s :: rest => (c :: s) :: rest
      | [] => [[c]]

/-- `extractCountry` of `src/unnamed/part_000` / `part_001`:
`norm(location).split(',').map(p => p.trim()).filter(Boolean)` and then the
last element, or `''` when the filtered list is empty. -/
def extractCountry (location : String) : String :=
  let parts := ((splitComma (normStr location).data).map trimChars).filter
    (fun p => p ≠ ([] : List Char))
  String.mk (parts.getLastD [])

/-- `extractCountry` of `src/index.js`: same split and trim, but **no**
`filter(Boolean)` — the last segment is returned even when it is empty
(`parts.length > 0 ? parts[parts.length - 1] : ''`; `split` never returns an
empty array, so the guard is always taken). -/
def extractCountryIndex (location : String) : String :=
  let parts := (splitComma (normStr location).data).map trimChars
  if parts.length > 0 then String.mk (parts.getLastD []) else ""

/-- The claim's description of `extractCountry`, computed differently (left
fold keeping the most recent non-empty trimmed segment): split the
normalized location on commas, trim each segment, drop empty segments,
return the last non-empty segment, or `""` when none exists. -/
def lastNonEmptyTrimmedSegment (location : String) : String :=
  let segs := (splitComma (normStr location).data).map trimChars
  String.mk (segs.foldl (fun acc p => if p = [] then acc else p) [])

/-- No two adjacent whitespace characters. -/
def noAdj (a b : Char) : Prop := ¬(ws a = true ∧ ws b = true)

/-- Every whitespace character of the list is a plain space. -/
def allWsSpace (l : List Char) : Prop := ∀ c ∈ l, ws c = true → c = ' '

/-- The head (if any) is not whitespace. -/
def headNotWS (l : List Char) : Prop := ∀ c, l.head? = some c → ws c = false

/-- "Collapsed and trimmed": all whitespace is single interior spaces and
neither end is whitespace.  This is the shape `normalize` promises. -/
def collapsedAndTrimmed (l : List Char) : Prop :=
  allWsSpace l ∧ List.Chain' noAdj l ∧ l.dropWhile ws = l ∧ List.rdropWhile ws l = l

/-- A job record as built inside `page.evaluate` (raw, before the payload
normalization pass). -/
structure RawJob where
  title : String
  href : String
  location : String
  category : String
  team : String
deriving DecidableEq

/-- A job record of the final payload (normalized fields plus derived
country). -/
structure OutJob where
  title : String
  location : String
  country : String
  category : String
  team : String
  href : String
deriving DecidableEq

/-- The JS `Map` keyed by canonical link, modelled as an association list in
insertion order. -/
abbrev JobMap := List (String × RawJob)

/-- `Map.prototype.set`: update the value in place for an existing key
(keeping its position), append a new entry otherwise. -/
def mapSet : JobMap → String → RawJob → JobMap
  | [], k, v => [(k, v)]
  | kv :: m, k, v => if kv.1 = k then (k, v) :: m else kv :: mapSet m k v

/-- `jobs.forEach(j => allJobsMap.set(j.href, j))`. -/
def mergeBatch (m : JobMap) (batch : List RawJob) : JobMap :=
  batch.foldl (fun m j => mapSet m j.href j) m

/-- Merging the per-page batches in arrival order, starting from the empty
map (`const allJobsMap = new Map()`). -/
def aggregate (batches : List (List RawJob)) : JobMap :=
  batches.foldl mergeBatch []

/-- The per-record normalization applied while assembling the payload:
normalize every text field, derive `country` from the normalized location,
keep `href` as is. -/
def normalizeJob (j : RawJob) : OutJob :=
  let location := normStr j.location
  { title := normStr j.title
    location := location
    country := extractCountry location
    category := normStr j.category
    team := normStr j.team
    href := j.href }

/-- The crawl snapshot (`payload`); `scraped_at` is the watermark. -/
structure Payload where
  scraped_at : Nat
  source : String
  count : Nat
  jobs : List OutJob
deriving DecidableEq

def BASE_URL : String := "https://jobs.ardaghgroup.com/global/en/search-results?s=1"

/-- Payload assembly: `allJobs = Array.from(allJobsMap.values())`,
`count: allJobs.length`, `jobs: allJobs.map(normalize…)` (in `part_001` the
map is applied before `count` is taken; `map` preserves length, so the two
orders agree). -/
def mkPayload (now : Nat) (m : JobMap) : Payload :=
  let allJobs := m.map Prod.snd
  { scraped_at := now
    source := BASE_URL
    count := allJobs.length
    jobs := allJobs.map normalizeJob }

def keysOf (m : JobMap) : List String := m.map Prod.fst

/-- First-occurrence order of a key stream: the claim's "insertion order of
the first sighting of each link". -/
def firstSight (l : List String) : List String :=
  l.foldl (fun acc k => if k ∈ acc then acc else acc ++ [k]) []

def lookupM (m : JobMap) (k : String) : Option RawJob :=
  (m.find? (fun kv => kv.1 == k)).map Prod.snd

/-- `PAGE_SIZE = 10` (`?from=<offset>` steps of 10). -/
def PAGE_SIZE : Nat := 10

/-- `MAX_PAGES = 60`, the hard safety cap of `part_000`/`part_001`. -/
def MAX_PAGES : Nat := 60

/-- The offset loop of `part_000`'s `scrapeJobs`:
`for (pageIndex = 0; pageIndex < MAX_PAGES; pageIndex++)` with the
`seenOffsets` loop guard, the empty-batch stop and the short-page stop, in
that order.  `pages offset` is the extraction result of the page at that
offset; `remaining = MAX_PAGES - pageIndex` drives the recursion.  Returns
(number of `scrapePage` calls, aggregate map). -/
def offsetLoop000 (pages : Nat → List RawJob) (m : JobMap) (seen : List Nat)
    (pageIndex : Nat) : Nat → Nat × JobMap
  | 0 => (0, m)
  | remaining + 1 =>
    if pageIndex * PAGE_SIZE ∈ seen then (0, m)
    else if (pages (pageIndex * PAGE_SIZE)).length = 0 then (1, m)
    else if (pages (pageIndex * PAGE_SIZE)).length < PAGE_SIZE then
      (1, mergeBatch m (pages (pageIndex * PAGE_SIZE)))
    else
      ((offsetLoop000 pages (mergeBatch m (pages (pageIndex * PAGE_SIZE)))
          (pageIndex * PAGE_SIZE :: seen) (pageIndex + 1) remaining).1 + 1,
       (offsetLoop000 pages (mergeBatch m (pages (pageIndex * PAGE_SIZE)))
          (pageIndex * PAGE_SIZE :: seen) (pageIndex + 1) remaining).2)

/-- `part_000` offset pagination, started from the empty map, no seen
offsets, page index 0 and the full `MAX_PAGES` budget. -/
def offsetRun000 (pages : Nat → List RawJob) : Nat × JobMap :=
  offsetLoop000 pages [] [] 0 MAX_PAGES

/-- The offset loop of `part_001`'s `scrapeAll` (offset branch): identical
to `part_000`'s but without the `seenOffsets` guard. -/
def offsetLoop001 (pages : Nat → List RawJob) (m : JobMap) (pageIndex : Nat) :
    Nat → Nat × JobMap
  | 0 => (0, m)
  | remaining + 1 =>
    if (pages (pageIndex * PAGE_SIZE)).length = 0 then (1, m)
    else if (pages (pageIndex * PAGE_SIZE)).length < PAGE_SIZE then
      (1, mergeBatch m (pages (pageIndex * PAGE_SIZE)))
    else
      ((offsetLoop001 pages (mergeBatch m (pages (pageIndex * PAGE_SIZE)))
          (pageIndex + 1) remaining).1 + 1,
       (offsetLoop001 pages (mergeBatch m (pages (pageIndex * PAGE_SIZE)))
          (pageIndex + 1) remaining).2)

/-- `part_001` offset pagination from the initial state. -/
def offsetRun001 (pages : Nat → List RawJob) : Nat × JobMap :=
  offsetLoop001 pages [] 0 MAX_PAGES

/-- The stop condition of the offset loops at page index `i`: the extracted
batch is empty, or shorter than `PAGE_SIZE` (the claim's conditions (b) and
(c); (a), a repeated offset, never fires because offsets strictly
increase). -/
def offStop (pages : Nat → List RawJob) (i : Nat) : Prop :=
  (pages (i * PAGE_SIZE)).length = 0 ∨ (pages (i * PAGE_SIZE)).length < PAGE_SIZE

/-- The offset loop of `src/index.js`'s `scrapeJobs`: `while (hasMore)` with
**no** page-count ceiling and no seen-offset guard — only the empty-batch
and short-page stops.  `fuel` is an observation bound of the model (it does
not exist in the source); `none` means the loop is still running after
`fuel` page loads. -/
def scrapeLoopIndex (pages : Nat → List RawJob) (m : JobMap) (offset : Nat) :
    Nat → Option (Nat × JobMap)
  | 0 => none
  | fuel + 1 =>
    if (pages offset).length = 0 then some (1, m)
    else if (pages offset).length < PAGE_SIZE then
      some (1, mergeBatch m (pages offset))
    else
      match scrapeLoopIndex pages (mergeBatch m (pages offset))
          (offset + PAGE_SIZE) fuel with
      | none => none
      | some r => some (r.1 + 1, r.2)

/-- The next-button loop of `part_001`'s `scrapeAll`
(`for (p = 2; p <= MAX_PAGES; p++)`).  `ctl p` models "the `NEXT_SELECTOR`
control exists and is enabled when about to advance to page `p`"; `batch p`
is the extraction result of page `p`.  Stops when the control is
absent/disabled, the batch is empty, or the merge added no new key
(`allJobsMap.size === before`).  Returns (loop page loads, map). -/
def nextLoop (batch : Nat → List RawJob) (ctl : Nat → Bool) (m : JobMap)
    (p : Nat) : Nat → Nat × JobMap
  | 0 => (0, m)
  | r + 1 =>
    if ctl p = false then (0, m)
    else if (batch p).length = 0 then (1, m)
    else if (mergeBatch m (batch p)).length = m.length then
      (1, mergeBatch m (batch p))
    else
      ((nextLoop batch ctl (mergeBatch m (batch p)) (p + 1) r).1 + 1,
       (nextLoop batch ctl (mergeBatch m (batch p)) (p + 1) r).2)

/-- Next-button pagination: page 1 is scraped and merged unconditionally,
then the loop runs for pages `2 … MAX_PAGES`.  Returns (total page loads,
aggregate map). -/
def nextRun (batch : Nat → List RawJob) (ctl : Nat → Bool) : Nat × JobMap :=
  ((nextLoop batch ctl (mergeBatch [] (batch 1)) 2 (MAX_PAGES - 1)).1 + 1,
   (nextLoop batch ctl (mergeBatch [] (batch 1)) 2 (MAX_PAGES - 1)).2)

/-- The aggregate map after scraping pages `1 … q` in next-button mode. -/
def mapAt (batch : Nat → List RawJob) : Nat → JobMap
  | 0 => []
  | q + 1 => mergeBatch (mapAt batch q) (batch (q + 1))

/-- Partial merges from an arbitrary starting map `m`, used to relate the
loop state to `mapAt`. -/
def msAt (batch : Nat → List RawJob) (m : JobMap) (p : Nat) : Nat → JobMap
  | 0 => m
  | k + 1 => mergeBatch (msAt batch m p k) (batch (p + k))

/-- A tiny distinct job record, for concrete runs. -/
def jobW (i : Nat) : RawJob :=
  { title := "t", href := "h" ++ toString i, location := "", category := "",
    team := "" }

/-- Concrete page function: a full page of 10 at offset 0, a short page of 3
at offset 10, nothing beyond. -/
def pagesW : Nat → List RawJob := fun o =>
  if o = 0 then (List.range 10).map jobW
  else if o = 10 then (List.range 3).map (fun i => jobW (10 + i))
  else []

/-- Concrete page function where every page is a full batch of 10. -/
def pagesFull : Nat → List RawJob := fun _ => (List.range 10).map jobW

/-- Concrete next-mode batches: one new job on pages 1 and 2, nothing on
page 3. -/
def batchW : Nat → List RawJob := fun p =>
  if p = 1 then [jobW 1] else if p = 2 then [jobW 2] else []

/-- Concrete next-control that is always present and enabled. -/
def ctlW : Nat → Bool := fun _ => true

/-- A DOM anchor matching the job-link pattern, with the card texts the
extractor reads next to it.  `href` is the resolved absolute URL (`""`
models a missing/empty resolution, covering `part_001`'s
`a.href || a.getAttribute` fallback as well); `text` is the anchor's
`textContent` (`none` models a null `textContent`); the card fields are the
raw texts of the first matching location/category/team elements (`none`
when the card or the element is absent). -/
structure Anchor where
  href : String
  text : Option String
  location : Option String
  category : Option String
  team : Option String

/-- The card-field reader: text of the queried element, trimmed, and the
empty string when the card or the element is missing. -/
def pick : Option String → String
  | none => ""
  | some t => jsTrimStr t

/-- One iteration of the `page.evaluate` loop shared by all three variants:
an anchor with an empty resolved URL or a null/empty trimmed title is
skipped (`if (href && title)`); the rest are written into the `Map` keyed by
href (last seen wins). -/
def extractStep (m : JobMap) (a : Anchor) : JobMap :=
  match a.text.map jsTrimStr with
  | none => m
  | some t =>
    if a.href ≠ "" ∧ t ≠ "" then
      mapSet m a.href
        { title := t, href := a.href, location := pick a.location,
          category := pick a.category, team := pick a.team }
    else m

/-- The `page.evaluate` body: fold the loop over all matching anchors and
return the map's values. -/
def pageExtract (anchors : List Anchor) : List RawJob :=
  (anchors.foldl extractStep []).map Prod.snd

/-- `scrapePage` of `part_000`/`part_001`: the bounded wait for the first
matching anchor sets `mounted`; on timeout (`mounted = false`) the function
returns `[]` — the no-more-pages signal — instead of failing. -/
def scrapePage000 (mounted : Bool) (anchors : List Anchor) : List RawJob :=
  if mounted = false then [] else pageExtract anchors

/-- `scrapePage` of `src/index.js`: `page.waitForSelector(cardSelector,
{timeout})` has no catch, so a timeout (`mounted = false`) raises; the error
propagates through `scrapeJobs` to `main`'s catch and a process exit of 1.
`Except.error ()` models the raised timeout error. -/
def scrapePageIndex (mounted : Bool) (anchors : List Anchor) :
    Except Unit (List RawJob) :=
  if mounted = false then Except.error () else Except.ok (pageExtract anchors)

/-- Count of non-whitespace characters. -/
def countNonWS (l : List Char) : Nat := l.countP (fun c => !(ws c))

/-- A persisted row of the external `jobs` table. -/
structure PRow where
  url : String
  title : String
  location : String
  description : String
  is_active : Bool
  updated_at : Nat
deriving DecidableEq

abbrev Store := List PRow

/-- A store error token (the contents never matter, only which error). -/
abbrev DbErr := Nat

/-- The row `updateDatabase` builds for a payload job: `description` is the
category and team joined by a space and trimmed, `is_active := true`, and
`updated_at := t` (the snapshot watermark in `part_000`, a fresh clock
reading in `src/index.js`). -/
def rowOf (t : Nat) (j : OutJob) : PRow :=
  { url := j.href
    title := j.title
    location := j.location
    description := jsTrimStr (j.category ++ " " ++ j.team)
    is_active := true
    updated_at := t }

/-- Upsert with `onConflict: 'url'`: overwrite the row with the same url in
place, append when the key is new. -/
def upsertRow : Store → PRow → Store
  | [], r => [r]
  | p :: s, r => if p.url = r.url then r :: s else p :: upsertRow s r

def upsertRows (s : Store) (rows : List PRow) : Store := rows.foldl upsertRow s

/-- Slicing a row list into chunks of `CHUNK = 500`
(`for (i = 0; i < rows.length; i += CHUNK) rows.slice(i, i + CHUNK)`);
the fuel argument is the list length, which bounds the number of slices. -/
def chunksGo : Nat → List PRow → List (List PRow)
  | 0, _ => []
  | _, [] => []
  | fuel + 1, r :: rest =>
    (r :: rest).take 500 :: chunksGo fuel ((r :: rest).drop 500)

def chunks500 (rows : List PRow) : List (List PRow) := chunksGo rows.length rows

/-- Run the chunked upserts in order; `errs i` is the store's response to
chunk `i`.  On the first error the loop throws (`if (error) throw error`):
chunks already committed stay, the failing chunk and everything after it are
not applied. -/
def runChunks (errs : Nat → Option DbErr) :
    Store → List (List PRow) → Nat → Option DbErr × Store
  | s, [], _ => (none, s)
  | s, c :: rest, i =>
    match errs i with
    | some e => (some e, s)
    | none => runChunks errs (upsertRows s c) rest (i + 1)

/-- The deactivation pass of `part_000`:
`update({is_active: false}).eq('is_active', true).lt('updated_at', seenAt)`. -/
def deactivate (seenAt : Nat) (s : Store) : Store :=
  s.map (fun p =>
    if p.is_active = true ∧ p.updated_at < seenAt then { p with is_active := false }
    else p)

/-- `updateDatabase` of `part_000`: rows stamped with the snapshot
watermark, chunked upsert aborting on the first chunk error, then the
watermark-gated deactivation (whose own error also throws; an erroring
update is not applied). -/
def updateDatabase000 (errs : Nat → Option DbErr) (deactErr : Option DbErr)
    (payload : Payload) (s : Store) : Option DbErr × Store :=
  match runChunks errs s
      (chunks500 (payload.jobs.map (rowOf payload.scraped_at))) 0 with
  | (some e, s') => (some e, s')
  | (none, s') =>
    match deactErr with
    | some e => (some e, s')
    | none => (none, deactivate payload.scraped_at s')

/-- `main`'s catch: a thrown error gives exit code 1, success exit code 0. -/
def exitOf : Option DbErr × Store → Nat
  | (some _, _) => 1
  | (none, _) => 0

/-- The per-job upsert loop of `src/index.js`'s `updateDatabase`: each row
is stamped with a fresh clock reading (`new Date().toISOString()` at the
i-th iteration is `clock i`); the query results are discarded, so store
errors can never abort this variant. -/
def upsertEachIndex (clock : Nat → Nat) : Nat → Store → List OutJob → Store
  | _, s, [] => s
  | i, s, j :: rest => upsertEachIndex clock (i + 1) (upsertRow s (rowOf (clock i) j)) rest

/-- `updateDatabase` of `src/index.js`: first unconditionally flip every
active row inactive (`update({is_active: false}).eq('is_active', true)`),
then upsert every snapshot job. -/
def updateDatabaseIndex (clock : Nat → Nat) (payload : Payload) (s : Store) : Store :=
  upsertEachIndex clock 0
    (s.map (fun p => if p.is_active = true then { p with is_active := false } else p))
    payload.jobs

def findRow (s : Store) (u : String) : Option PRow := s.find? (fun p => p.url == u)

/-- JS truthiness of an optional env string: absent or empty is falsy. -/
def truthy : Option String → Bool
  | none => false
  | some s => !(s == "")

/-- Observable outcome of a whole run: the process exit code and how many
page loads were performed. -/
structure RunResult where
  exitCode : Nat
  pagesScraped : Nat
deriving DecidableEq

/-- The whole `part_000` script (same startup structure as `src/index.js`):
the Supabase credential check runs at module load, before any browser or
page work; with credentials present the offset crawl runs, `updateDatabase`
reconciles, and `main` exits 0 on success, 1 on a thrown store error. -/
def runSupabase000 (url key : Option String) (pages : Nat → List RawJob)
    (errs : Nat → Option DbErr) (deactErr : Option DbErr) (now : Nat)
    (s : Store) : RunResult :=
  if truthy url = false ∨ truthy key = false then
    { exitCode := 1, pagesScraped := 0 }
  else
    { exitCode := exitOf (updateDatabase000 errs deactErr
        (mkPayload now (offsetRun000 pages).2) s)
      pagesScraped := (offsetRun000 pages).1 }

/-- The `part_001` script: no sink-credential check happens before the
crawl; `scrapeAll` runs (offset branch here) and `saveJson` writes, and only
then `postToBolt` throws when `BOLT_INGEST_URL` or `INGEST_KEY` is missing
(with both present, a non-ok response also throws). -/
def runBolt (ingestUrl ingestKey : Option String) (pages : Nat → List RawJob)
    (fetchOk : Bool) : RunResult :=
  { exitCode :=
      if truthy ingestUrl = false ∨ truthy ingestKey = false then 1
      else if fetchOk = false then 1 else 0
    pagesScraped := (offsetRun001 pages).1 }

/-- Concrete anchor with a resolvable URL and a non-empty title. -/
def anchorW : Anchor :=
  { href := "hx", text := some " T itle ", location := none, category := none,
    team := none }

/-- The raw record `pageExtract` builds from `anchorW`. -/
def rawW : RawJob :=
  { title := "T itle", href := "hx", location := "", category := "", team := "" }

/-- Concrete stored rows and payloads for witnesses and counterexamples. -/
def rowA : PRow :=
  { url := "A", title := "a", location := "", description := "",
    is_active := true, updated_at := 7 }

def rowB : PRow :=
  { url := "B", title := "b", location := "", description := "",
    is_active := true, updated_at := 1 }

def rowAold : PRow :=
  { url := "A", title := "a", location := "", description := "",
    is_active := true, updated_at := 1 }

def ojB : OutJob :=
  { title := "tb", location := "", country := "", category := "", team := "",
    href := "B" }

def ojC : OutJob :=
  { title := "tc", location := "", country := "", category := "", team := "",
    href := "C" }

/-- A snapshot of jobs B and C taken at watermark 2. -/
def payloadBC : Payload :=
  { scraped_at := 2, source := BASE_URL, count := 2, jobs := [ojB, ojC] }

/-- An empty snapshot at watermark 5. -/
def emptyPayload : Payload :=
  { scraped_at := 5, source := BASE_URL, count := 0, jobs := [] }

/-- A one-job snapshot at watermark 9. -/
def payloadW : Payload :=
  { scraped_at := 9, source := BASE_URL, count := 1,
    jobs := [{ title := "t", location := "", country := "", category := "",
               team := "", href := "hw" }] }

lemma allWsSpace_collapseAux (l : List Char) :
    ∀ b : Bool, allWsSpace (collapseAux b l) := by
  induction l with
  | nil => intro b c hc; simp [collapseAux] at hc
  | cons c cs ih =>
    intro b d hd hwd
    by_cases hc : ws c = true
    · cases b with
      | true =>
        simp only [collapseAux, hc, if_pos, if_true] at hd
        exact ih true d hd hwd
      | false =>
        simp only [collapseAux, hc, if_true, Bool.false_eq_true, if_false,
          List.mem_cons] at hd
        rcases hd with h | h
        · exact h
        · exact ih true d h hwd
    · simp only [collapseAux, hc, Bool.false_eq_true, if_false, List.mem_cons] at hd
      rcases hd with h | h
      · subst h; exact absurd hwd hc
      · exact ih false d h hwd

lemma chain_collapseAux (l : List Char) :
    (List.Chain' noAdj (collapseAux true l) ∧ headNotWS (collapseAux true l))
    ∧ List.Chain' noAdj (collapseAux false l) := by
  induction l with
  | nil => constructor <;> simp [collapseAux, headNotWS]
  | cons c cs ih =>
    by_cases hc : ws c = true
    · refine ⟨⟨?_, ?_⟩, ?_⟩
      · simpa [collapseAux, hc] using ih.1.1
      · simpa [collapseAux, hc] using ih.1.2
      · simp only [collapseAux, hc, if_true, Bool.false_eq_true, if_false]
        rw [List.chain'_cons']
        refine ⟨?_, ih.1.1⟩
        intro y hy
        have := ih.1.2 y hy
        simp [noAdj, this]
    · refine ⟨⟨?_, ?_⟩, ?_⟩
      · simp only [collapseAux, hc, Bool.false_eq_true, if_false]
        rw [List.chain'_cons']
        exact ⟨fun y _ => by simp [noAdj, hc], ih.2⟩
      · intro d hd
        simp only [collapseAux, hc, Bool.false_eq_true, if_false, List.head?_cons,
          Option.some.injEq] at hd
        subst hd
        simpa using hc
      · simp only [collapseAux, hc, Bool.false_eq_true, if_false]
        rw [List.chain'_cons']
        exact ⟨fun y _ => by simp [noAdj, hc], ih.2⟩

lemma collapseAux_fix (l : List Char) :
    (allWsSpace l → List.Chain' noAdj l → collapseAux false l = l)
    ∧ (allWsSpace l → List.Chain' noAdj l → headNotWS l → collapseAux true l = l) := by
  induction l with
  | nil => exact ⟨fun _ _ => rfl, fun _ _ _ => rfl⟩
  | cons c cs ih =>
    have subAll : allWsSpace (c :: cs) → allWsSpace cs :=
      fun h d hd => h d (List.mem_cons_of_mem c hd)
    have subChain : List.Chain' noAdj (c :: cs) → List.Chain' noAdj cs :=
      fun h => (List.chain'_cons'.mp h).2
    constructor
    · intro hAll hChain
      by_cases hc : ws c = true
      · have hsp : c = ' ' := hAll c (List.mem_cons_self c cs) hc
        have hHead : headNotWS cs := by
          intro d hd
          have := (List.chain'_cons'.mp hChain).1 d hd
          simp only [noAdj, hc, true_and] at this
          exact Bool.not_eq_true _ ▸ by simpa using this
        simp only [collapseAux, hc, if_true, Bool.false_eq_true, if_false]
        rw [ih.2 (subAll hAll) (subChain hChain) hHead, hsp]
      · simp only [collapseAux, hc, Bool.false_eq_true, if_false]
        rw [ih.1 (subAll hAll) (subChain hChain)]
    · intro hAll hChain hHead
      have hc : ws c = false := hHead c rfl
      simp only [collapseAux, hc, Bool.false_eq_true, if_false]
      rw [ih.1 (subAll hAll) (subChain hChain)]

lemma collapseWS_fix {l : List Char} (h1 : allWsSpace l) (h2 : List.Chain' noAdj l) :
    collapseWS l = l :=
  (collapseAux_fix l).1 h1 h2

lemma headNotWS_dropWhile (w : List Char) : headNotWS (w.dropWhile ws) := by
  induction w with
  | nil => intro c hc; simp [List.dropWhile] at hc
  | cons a l ih =>
    intro c hc
    by_cases ha : ws a = true
    · rw [List.dropWhile_cons_of_pos ha] at hc
      exact ih c hc
    · rw [List.dropWhile_cons_of_neg (by simpa using ha)] at hc
      simp only [List.head?_cons, Option.some.injEq] at hc
      subst hc
      simpa using ha

lemma headNotWS_of_isPrefix {y z : List Char} (h : y <+: z) (hz : headNotWS z) :
    headNotWS y := by
  obtain ⟨t, rfl⟩ := h
  intro c hc
  apply hz
  cases y with
  | nil => simp at hc
  | cons a ys => simpa using hc

lemma dropWhile_eq_self_of_headNotWS {y : List Char} (h : headNotWS y) :
    y.dropWhile ws = y := by
  cases y with
  | nil => rfl
  | cons a ys => exact List.dropWhile_cons_of_neg (by simpa using h a rfl)

lemma collapsedAndTrimmed_normChars (l : List Char) :
    collapsedAndTrimmed (normChars l) := by
  have hAllc : allWsSpace (collapseWS l) := allWsSpace_collapseAux l false
  have hChainc : List.Chain' noAdj (collapseWS l) := (chain_collapseAux l).2
  have hsuf : (collapseWS l).dropWhile ws <:+ collapseWS l := List.dropWhile_suffix ws
  have hpre : normChars l <+: (collapseWS l).dropWhile ws :=
    List.rdropWhile_prefix ws ((collapseWS l).dropWhile ws)
  have hsub : normChars l ⊆ collapseWS l :=
    fun c hc => hsuf.subset (hpre.subset hc)
  have hAll : allWsSpace (normChars l) := fun c hc => hAllc c (hsub hc)
  have hChain : List.Chain' noAdj (normChars l) :=
    List.Chain'.prefix (List.Chain'.suffix hChainc hsuf) hpre
  have hHead : headNotWS (normChars l) :=
    headNotWS_of_isPrefix hpre (headNotWS_dropWhile (collapseWS l))
  refine ⟨hAll, hChain, dropWhile_eq_self_of_headNotWS hHead, ?_⟩
  exact List.rdropWhile_idempotent ws ((collapseWS l).dropWhile ws)

lemma normChars_fix {y : List Char} (h : collapsedAndTrimmed y) : normChars y = y := by
  obtain ⟨h1, h2, h3, h4⟩ := h
  unfold normChars
  rw [collapseWS_fix h1 h2, h3, h4]

lemma normChars_idem (l : List Char) : normChars (normChars l) = normChars l :=
  normChars_fix (collapsedAndTrimmed_normChars l)

/-- C9: `normalize` is total over string and null/absent inputs, maps null to
`""`, produces collapsed-and-trimmed output (every whitespace run reduced to
one interior space, no leading/trailing whitespace), is idempotent, and
`normalize("  a   b ") = "a b"`. -/
theorem norm_total_idempotent :
    norm none = ""
    ∧ (∀ s : Option String, norm (some (norm s)) = norm s)
    ∧ (∀ s : String, collapsedAndTrimmed (normStr s).data)
    ∧ norm (some "  a   b ") = "a b" := by
  refine ⟨by decide, ?_, ?_, by decide⟩
  · intro s
    show String.mk (normChars (String.mk (normChars _)).data) = _
    exact congrArg String.mk (normChars_idem _)
  · intro s
    exact collapsedAndTrimmed_normChars s.data

/-- Witness for C9 at concrete inputs. -/
theorem norm_total_idempotent_witness :
    norm (some (norm (some "  x \t y "))) = norm (some "  x \t y ")
    ∧ collapsedAndTrimmed (normStr " z\t q ").data :=
  ⟨norm_total_idempotent.2.1 (some "  x \t y "),
   norm_total_idempotent.2.2.1 " z\t q "⟩

lemma foldl_keep_last_nonEmpty (l : List (List Char)) :
    ∀ acc : List Char,
      l.foldl (fun a p => if p = [] then a else p) acc
        = (l.filter (fun p => p ≠ ([] : List Char))).getLastD acc := by
  induction l with
  | nil => intro acc; rfl
  | cons p l ih =>
    intro acc
    by_cases hp : p = ([] : List Char)
    · rw [List.foldl_cons, if_pos hp, List.filter_cons_of_neg (by simpa using hp)]
      exact ih acc
    · rw [List.foldl_cons, if_neg hp, List.filter_cons_of_pos (by simpa using hp),
        List.getLastD_cons]
      exact ih p

/-- C8 (amended to the `part_000`/`part_001` variant): `extractCountry`
splits the normalized location on commas, trims each segment, drops empty
segments and returns the last non-empty segment (`""` when none exists),
with the three documented examples. -/
theorem extractCountry_spec :
    (∀ s : String, extractCountry s = lastNonEmptyTrimmedSegment s)
    ∧ extractCountry "City, Region, Country" = "Country"
    ∧ extractCountry "" = ""
    ∧ extractCountry "OnlyOne" = "OnlyOne" := by
  refine ⟨?_, by decide, by decide, by decide⟩
  intro s
  unfold extractCountry lastNonEmptyTrimmedSegment
  exact congrArg String.mk (foldl_keep_last_nonEmpty _ []).symm

/-- C8 counterexample: the claim is stated for every variant, but
`src/index.js`'s `extractCountry` does not drop empty segments — on
`"a,b,"` the claimed result (last non-empty segment) is `"b"`, while the
`index.js` code returns the empty final segment. -/
theorem extractCountryIndex_keeps_empty_segment :
    lastNonEmptyTrimmedSegment "a,b," = "b" ∧ extractCountryIndex "a,b," = "" :=
  ⟨by decide, by decide⟩

lemma keysOf_cons (kv : String × RawJob) (m : JobMap) :
    keysOf (kv :: m) = kv.1 :: keysOf m := rfl

lemma keysOf_mapSet (m : JobMap) (k : String) (v : RawJob) :
    keysOf (mapSet m k v) = if k ∈ keysOf m then keysOf m else keysOf m ++ [k] := by
  induction m with
  | nil => simp [mapSet, keysOf]
  | cons kv m ih =>
    by_cases hk : kv.1 = k
    · rw [show mapSet (kv :: m) k v = (k, v) :: m from by simp [mapSet, hk]]
      rw [keysOf_cons, keysOf_cons, if_pos (by simp [keysOf, List.mem_cons, hk])]
      simp [hk]
    · rw [show mapSet (kv :: m) k v = kv :: mapSet m k v from by simp [mapSet, hk]]
      rw [keysOf_cons, keysOf_cons, ih]
      by_cases hm : k ∈ keysOf m
      · rw [if_pos hm, if_pos (by simp [List.mem_cons, hm])]
      · rw [if_neg hm, if_neg (by
          simp only [List.mem_cons, hm, or_false]
          exact fun h : k = kv.1 => hk h.symm)]
        simp

lemma mem_values_mapSet {j : RawJob} {m : JobMap} {k : String} {v : RawJob}
    (h : j ∈ (mapSet m k v).map Prod.snd) : j = v ∨ j ∈ m.map Prod.snd := by
  induction m with
  | nil => simpa [mapSet] using h
  | cons kv m ih =>
    by_cases hk : kv.1 = k
    · simp only [mapSet, hk, if_true, List.map_cons, List.mem_cons] at h
      rcases h with h | h
      · exact Or.inl h
      · exact Or.inr (by simp [h])
    · simp only [mapSet, hk, if_false, List.map_cons, List.mem_cons] at h
      rcases h with h | h
      · exact Or.inr (by simp [h])
      · rcases ih h with h' | h'
        · exact Or.inl h'
        · exact Or.inr (by simp [h'])

lemma lookupM_nil (k : String) : lookupM [] k = none := rfl

lemma lookupM_cons (kv : String × RawJob) (m : JobMap) (k : String) :
    lookupM (kv :: m) k = if kv.1 = k then some kv.2 else lookupM m k := by
  by_cases h : kv.1 = k
  · rw [if_pos h]
    unfold lookupM
    rw [List.find?_cons_of_pos _ (by simpa using h)]
    rfl
  · rw [if_neg h]
    unfold lookupM
    rw [List.find?_cons_of_neg _ (by simpa using h)]

lemma lookupM_mapSet (m : JobMap) (k : String) (v : RawJob) (k' : String) :
    lookupM (mapSet m k v) k' = if k' = k then some v else lookupM m k' := by
  induction m with
  | nil =>
    show lookupM [(k, v)] k' = _
    rw [lookupM_cons, lookupM_nil]
    by_cases h : k' = k
    · rw [if_pos h.symm, if_pos h]
    · rw [if_neg (fun hh : k = k' => h hh.symm), if_neg h]
  | cons kv m ih =>
    by_cases hk : kv.1 = k
    · rw [show mapSet (kv :: m) k v = (k, v) :: m from by simp [mapSet, hk]]
      rw [lookupM_cons, lookupM_cons]
      by_cases h : k' = k
      · rw [if_pos h.symm, if_pos h]
      · rw [if_neg (fun hh : k = k' => h hh.symm), if_neg h,
          if_neg (fun hh : kv.1 = k' => h (hk ▸ hh).symm)]
    · rw [show mapSet (kv :: m) k v = kv :: mapSet m k v from by simp [mapSet, hk]]
      rw [lookupM_cons, ih, lookupM_cons]
      by_cases h : kv.1 = k'
      · have hk' : ¬k' = k := fun e => hk (h.trans e)
        rw [if_pos h, if_neg hk', if_pos h]
      · by_cases h2 : k' = k <;> simp [h, h2, hk]

/-- The merged map satisfies the key/href invariant: every entry's key is
its record's link. -/
lemma href_eq_key_aggregate (batches : List (List RawJob)) :
    ∀ kv ∈ aggregate batches, kv.2.href = kv.1 := by
  have hset : ∀ (m : JobMap) (j : RawJob), (∀ kv ∈ m, kv.2.href = kv.1) →
      ∀ kv ∈ mapSet m j.href j, kv.2.href = kv.1 := by
    intro m j hm
    induction m with
    | nil => intro kv hkv; simp only [mapSet, List.mem_singleton] at hkv; simp [hkv]
    | cons kv0 m ih =>
      intro kv hkv
      by_cases hk : kv0.1 = j.href
      · simp only [mapSet, hk, if_true, List.mem_cons] at hkv
        rcases hkv with h | h
        · simp [h]
        · exact hm kv (List.mem_cons_of_mem _ h)
      · simp only [mapSet, hk, if_false, List.mem_cons] at hkv
        rcases hkv with h | h
        · exact h ▸ hm kv0 (List.mem_cons_self _ _)
        · exact ih (fun kv' h' => hm kv' (List.mem_cons_of_mem _ h')) kv h
  have hmerge : ∀ (batch : List RawJob) (m : JobMap), (∀ kv ∈ m, kv.2.href = kv.1) →
      ∀ kv ∈ mergeBatch m batch, kv.2.href = kv.1 := by
    intro batch
    induction batch with
    | nil => intro m hm; exact hm
    | cons j batch ih =>
      intro m hm
      exact ih (mapSet m j.href j) (hset m j hm)
  have : ∀ (bs : List (List RawJob)) (m : JobMap), (∀ kv ∈ m, kv.2.href = kv.1) →
      ∀ kv ∈ bs.foldl mergeBatch m, kv.2.href = kv.1 := by
    intro bs
    induction bs with
    | nil => intro m hm; exact hm
    | cons b bs ih =>
      intro m hm
      exact ih (mergeBatch m b) (hmerge b m hm)
  exact this batches [] (by simp)

lemma keysOf_mergeBatch (batch : List RawJob) :
    ∀ m : JobMap, keysOf (mergeBatch m batch)
      = (batch.map (fun j => j.href)).foldl
          (fun acc k => if k ∈ acc then acc else acc ++ [k]) (keysOf m) := by
  induction batch with
  | nil => intro m; rfl
  | cons j batch ih =>
    intro m
    show keysOf (mergeBatch (mapSet m j.href j) batch) = _
    rw [ih (mapSet m j.href j)]
    simp [keysOf_mapSet]

lemma keysOf_aggregate (batches : List (List RawJob)) :
    keysOf (aggregate batches) = firstSight ((batches.flatten).map (fun j => j.href)) := by
  suffices h : ∀ (bs : List (List RawJob)) (m : JobMap),
      keysOf (bs.foldl mergeBatch m)
        = ((bs.flatten).map (fun j => j.href)).foldl
            (fun acc k => if k ∈ acc then acc else acc ++ [k]) (keysOf m) by
    simpa [aggregate, firstSight, keysOf] using h batches []
  intro bs
  induction bs with
  | nil => intro m; simp
  | cons b bs ih =>
    intro m
    simp only [List.foldl_cons, List.flatten_cons, List.map_append, List.foldl_append]
    rw [ih (mergeBatch m b), keysOf_mergeBatch]

lemma firstSight_aux_nodup (l : List String) :
    ∀ acc : List String, acc.Nodup →
      (l.foldl (fun acc k => if k ∈ acc then acc else acc ++ [k]) acc).Nodup := by
  induction l with
  | nil => intro acc h; exact h
  | cons k l ih =>
    intro acc h
    by_cases hk : k ∈ acc
    · simpa [hk] using ih acc h
    · simp only [List.foldl_cons, if_neg hk]
      exact ih (acc ++ [k]) (by simp [List.nodup_append, h, hk])

lemma lookupM_mergeBatch (batch : List RawJob) :
    ∀ (m : JobMap) (k : String),
      lookupM (mergeBatch m batch) k
        = ((batch.filter (fun j => j.href == k)).getLast?).or (lookupM m k) := by
  induction batch with
  | nil => intro m k; simp [mergeBatch, Option.or]
  | cons j batch ih =>
    intro m k
    show lookupM (mergeBatch (mapSet m j.href j) batch) k = _
    rw [ih (mapSet m j.href j) k, lookupM_mapSet]
    by_cases hk : j.href = k
    · rw [List.filter_cons_of_pos (by simpa using hk), if_pos hk.symm,
        List.getLast?_cons]
      cases hfb : (batch.filter (fun j => j.href == k)).getLast? <;> simp [Option.or]
    · rw [List.filter_cons_of_neg (by simpa using hk),
        if_neg (fun h : k = j.href => hk h.symm)]

lemma lookupM_aggregate (batches : List (List RawJob)) (k : String) :
    lookupM (aggregate batches) k
      = ((batches.flatten).filter (fun j => j.href == k)).getLast? := by
  suffices h : ∀ (bs : List (List RawJob)) (m : JobMap),
      lookupM (bs.foldl mergeBatch m) k
        = (((bs.flatten).filter (fun j => j.href == k)).getLast?).or (lookupM m k) by
    have h2 := h batches []
    rw [lookupM_nil] at h2
    rw [aggregate, h2]
    cases (((batches.flatten).filter (fun j => j.href == k)).getLast?) <;>
      simp [Option.or]
  intro bs
  induction bs with
  | nil => intro m; simp [Option.or]
  | cons b bs ih =>
    intro m
    show lookupM (bs.foldl mergeBatch (mergeBatch m b)) k = _
    rw [ih (mergeBatch m b), lookupM_mergeBatch, List.flatten_cons,
      List.filter_append]
    cases hx : ((bs.flatten).filter (fun j => j.href == k)).getLast? with
    | none =>
      have hnil : (bs.flatten).filter (fun j => j.href == k) = [] := by
        cases hf : (bs.flatten).filter (fun j => j.href == k) with
        | nil => rfl
        | cons a l => rw [hf, List.getLast?_cons] at hx; exact absurd hx (by simp)
      rw [hnil]
      simp [Option.or]
    | some a =>
      have hApp : ((b.filter (fun j => j.href == k))
          ++ (bs.flatten).filter (fun j => j.href == k)).getLast? = some a := by
        cases hf : (bs.flatten).filter (fun j => j.href == k) with
        | nil => rw [hf] at hx; exact absurd hx (by simp)
        | cons c l =>
          rw [hf] at hx
          rw [List.getLast?_append_cons]
          exact hx
      rw [hApp]
      simp [Option.or]

lemma jobs_href_eq_keys (batches : List (List RawJob)) (now : Nat) :
    (mkPayload now (aggregate batches)).jobs.map (fun j => j.href)
      = keysOf (aggregate batches) := by
  have hinv := href_eq_key_aggregate batches
  simp only [mkPayload, List.map_map, keysOf]
  apply List.map_congr_left
  intro kv hkv
  simpa [normalizeJob] using hinv kv hkv

/-- C7: for every sequence of page batches, the snapshot's jobs contain each
canonical link at most once with last write per key winning, the job
sequence preserves the first-sighting order of links, and `count` equals the
length of `jobs`. -/
theorem aggregate_payload_invariants (batches : List (List RawJob)) (now : Nat) :
    ((mkPayload now (aggregate batches)).jobs.map (fun j => j.href)).Nodup
    ∧ (mkPayload now (aggregate batches)).jobs.map (fun j => j.href)
        = firstSight ((batches.flatten).map (fun j => j.href))
    ∧ (∀ k : String, lookupM (aggregate batches) k
        = ((batches.flatten).filter (fun j => j.href == k)).getLast?)
    ∧ (mkPayload now (aggregate batches)).count
        = (mkPayload now (aggregate batches)).jobs.length := by
  refine ⟨?_, ?_, lookupM_aggregate batches, ?_⟩
  · rw [jobs_href_eq_keys, keysOf_aggregate]
    exact firstSight_aux_nodup _ [] List.nodup_nil
  · rw [jobs_href_eq_keys, keysOf_aggregate]
  · simp [mkPayload]

lemma offsetLoop000_eq_001 (pages : Nat → List RawJob) :
    ∀ (r pageIndex : Nat) (m : JobMap) (seen : List Nat),
      (∀ o ∈ seen, o < pageIndex * PAGE_SIZE) →
      offsetLoop000 pages m seen pageIndex r = offsetLoop001 pages m pageIndex r := by
  intro r
  induction r with
  | zero => intro pi m seen _; rfl
  | succ r ih =>
    intro pi m seen hseen
    have hnot : pi * PAGE_SIZE ∉ seen := fun h => Nat.lt_irrefl _ (hseen _ h)
    have hrec := ih (pi + 1) (mergeBatch m (pages (pi * PAGE_SIZE)))
      (pi * PAGE_SIZE :: seen) (by
        intro o ho
        rcases List.mem_cons.mp ho with h | h
        · subst h; simp only [PAGE_SIZE]; omega
        · have := hseen o h
          simp only [PAGE_SIZE] at *
          omega)
    simp only [offsetLoop000, offsetLoop001]
    rw [if_neg hnot]
    by_cases h0 : (pages (pi * PAGE_SIZE)).length = 0
    · simp [h0]
    · by_cases hs : (pages (pi * PAGE_SIZE)).length < PAGE_SIZE
      · simp [h0, hs]
      · simp only [h0, hs, if_false]
        rw [hrec]

lemma offsetLoop001_spec (pages : Nat → List RawJob) :
    ∀ (r pageIndex : Nat) (m : JobMap),
      (offsetLoop001 pages m pageIndex r).1 ≤ r
      ∧ (0 < r → 0 < (offsetLoop001 pages m pageIndex r).1)
      ∧ (∀ i, i + 1 < (offsetLoop001 pages m pageIndex r).1 →
          ¬ offStop pages (pageIndex + i))
      ∧ ((offsetLoop001 pages m pageIndex r).1 < r →
          offStop pages (pageIndex + (offsetLoop001 pages m pageIndex r).1 - 1)) := by
  intro r
  induction r with
  | zero =>
    intro pi m
    exact ⟨Nat.le_refl _, fun h => absurd h (by simp [offsetLoop001]),
      fun i hi => absurd hi (by simp [offsetLoop001]),
      fun h => absurd h (by simp [offsetLoop001])⟩
  | succ r ih =>
    intro pi m
    by_cases h0 : (pages (pi * PAGE_SIZE)).length = 0
    · have hcnt : (offsetLoop001 pages m pi (r + 1)).1 = 1 := by
        simp [offsetLoop001, h0]
      rw [hcnt]
      refine ⟨by omega, fun _ => by omega, fun i hi => absurd hi (by omega), ?_⟩
      intro _
      have : pi + 1 - 1 = pi := by omega
      rw [this]
      exact Or.inl h0
    · by_cases hs : (pages (pi * PAGE_SIZE)).length < PAGE_SIZE
      · have hcnt : (offsetLoop001 pages m pi (r + 1)).1 = 1 := by
          simp [offsetLoop001, h0, hs]
        rw [hcnt]
        refine ⟨by omega, fun _ => by omega, fun i hi => absurd hi (by omega), ?_⟩
        intro _
        have : pi + 1 - 1 = pi := by omega
        rw [this]
        exact Or.inr hs
      · have hcnt : (offsetLoop001 pages m pi (r + 1)).1
            = (offsetLoop001 pages (mergeBatch m (pages (pi * PAGE_SIZE)))
                (pi + 1) r).1 + 1 := by
          simp [offsetLoop001, h0, hs]
        obtain ⟨ih1, ih2, ih3, ih4⟩ := ih (pi + 1) (mergeBatch m (pages (pi * PAGE_SIZE)))
        rw [hcnt]
        refine ⟨by omega, fun _ => by omega, ?_, ?_⟩
        · intro i hi
          cases i with
          | zero =>
            intro hstop
            rw [Nat.add_zero] at hstop
            rcases hstop with h | h
            · exact h0 h
            · exact hs h
          | succ i =>
            have harr : pi + (i + 1) = (pi + 1) + i := by omega
            rw [harr]
            exact ih3 i (by omega)
        · intro hlt
          have hr : (offsetLoop001 pages (mergeBatch m (pages (pi * PAGE_SIZE)))
              (pi + 1) r).1 < r := by omega
          have hpos := ih2 (by omega)
          have h4 := ih4 hr
          have harr : pi + ((offsetLoop001 pages (mergeBatch m (pages (pi * PAGE_SIZE)))
              (pi + 1) r).1 + 1) - 1
              = (pi + 1) + (offsetLoop001 pages (mergeBatch m (pages (pi * PAGE_SIZE)))
                  (pi + 1) r).1 - 1 := by omega
          rw [harr]
          exact h4

/-- C3 (amended to the `part_000` variant): offset pagination performs at
most `MAX_PAGES` page loads and at least one; every page it continued past
was a full page (neither empty nor short); and if it stopped before the cap,
the last page it scraped satisfied a stop condition (empty or short batch —
the repeated-offset guard can never fire since offsets strictly increase). -/
theorem offset_pagination_termination (pages : Nat → List RawJob) :
    (offsetRun000 pages).1 ≤ MAX_PAGES
    ∧ 0 < (offsetRun000 pages).1
    ∧ (∀ i, i + 1 < (offsetRun000 pages).1 → ¬ offStop pages i)
    ∧ ((offsetRun000 pages).1 < MAX_PAGES →
        offStop pages ((offsetRun000 pages).1 - 1)) := by
  have heq : offsetRun000 pages = offsetRun001 pages := by
    unfold offsetRun000 offsetRun001
    exact offsetLoop000_eq_001 pages MAX_PAGES 0 [] []
      (fun o ho => absurd ho (List.not_mem_nil o))
  rw [heq]
  simp only [offsetRun001]
  obtain ⟨h1, h2, h3, h4⟩ := offsetLoop001_spec pages MAX_PAGES 0 []
  refine ⟨h1, h2 (by decide), ?_, ?_⟩
  · intro i hi
    have h := h3 i hi
    simpa using h
  · intro hlt
    have h := h4 hlt
    simpa using h

/-- Witness for C3: a crawl with a full first page and a short second page
continued past page 0 and stopped at a page satisfying a stop condition. -/
theorem offset_pagination_termination_witness :
    ¬ offStop pagesW 0 ∧ offStop pagesW ((offsetRun000 pagesW).1 - 1) :=
  ⟨(offset_pagination_termination pagesW).2.2.1 0 (by decide),
   (offset_pagination_termination pagesW).2.2.2 (by decide)⟩

/-- C3 counterexample: the claim also covers `src/index.js`'s offset loop
(`while (hasMore)`), but that loop enforces no page-count ceiling: when
every page returns a full batch of `PAGE_SIZE` records it is still running
after `MAX_PAGES + 1 = 61` page loads. -/
theorem scrapeLoopIndex_exceeds_cap :
    scrapeLoopIndex pagesFull [] 0 (MAX_PAGES + 1) = none := by decide

lemma msAt_succ_base (batch : Nat → List RawJob) (m : JobMap) (p : Nat) :
    ∀ k, msAt batch (mergeBatch m (batch p)) (p + 1) k = msAt batch m p (k + 1) := by
  intro k
  induction k with
  | zero => simp [msAt]
  | succ k ih =>
    show mergeBatch (msAt batch (mergeBatch m (batch p)) (p + 1) k) (batch ((p + 1) + k))
        = mergeBatch (msAt batch m p (k + 1)) (batch (p + (k + 1)))
    rw [ih, show (p + 1) + k = p + (k + 1) from by omega]

lemma nextLoop_spec (batch : Nat → List RawJob) (ctl : Nat → Bool) :
    ∀ (r p : Nat) (m : JobMap),
      (nextLoop batch ctl m p r).1 ≤ r
      ∧ (∀ k, k < (nextLoop batch ctl m p r).1 → ctl (p + k) = true)
      ∧ (∀ k, k + 1 < (nextLoop batch ctl m p r).1 →
          batch (p + k) ≠ [] ∧
          (msAt batch m p (k + 1)).length ≠ (msAt batch m p k).length) := by
  intro r
  induction r with
  | zero =>
    intro p m
    exact ⟨Nat.le_refl _, fun k hk => absurd hk (by simp [nextLoop]),
      fun k hk => absurd hk (by simp [nextLoop])⟩
  | succ r ih =>
    intro p m
    by_cases hc : ctl p = false
    · have hcnt : (nextLoop batch ctl m p (r + 1)).1 = 0 := by simp [nextLoop, hc]
      rw [hcnt]
      exact ⟨by omega, fun k hk => absurd hk (by omega),
        fun k hk => absurd hk (by omega)⟩
    · by_cases he : (batch p).length = 0
      · have hcnt : (nextLoop batch ctl m p (r + 1)).1 = 1 := by simp [nextLoop, hc, he]
        rw [hcnt]
        refine ⟨by omega, ?_, fun k hk => absurd hk (by omega)⟩
        intro k hk
        have hk0 : k = 0 := by omega
        subst hk0
        rw [Nat.add_zero]
        simpa using hc
      · by_cases hs : (mergeBatch m (batch p)).length = m.length
        · have hcnt : (nextLoop batch ctl m p (r + 1)).1 = 1 := by
            simp [nextLoop, hc, he, hs]
          rw [hcnt]
          refine ⟨by omega, ?_, fun k hk => absurd hk (by omega)⟩
          intro k hk
          have hk0 : k = 0 := by omega
          subst hk0
          rw [Nat.add_zero]
          simpa using hc
        · have hcnt : (nextLoop batch ctl m p (r + 1)).1
              = (nextLoop batch ctl (mergeBatch m (batch p)) (p + 1) r).1 + 1 := by
            simp [nextLoop, hc, he, hs]
          obtain ⟨ih1, ih2, ih3⟩ := ih (p + 1) (mergeBatch m (batch p))
          rw [hcnt]
          refine ⟨by omega, ?_, ?_⟩
          · intro k hk
            cases k with
            | zero => rw [Nat.add_zero]; simpa using hc
            | succ k =>
              rw [show p + (k + 1) = (p + 1) + k from by omega]
              exact ih2 k (by omega)
          · intro k hk
            cases k with
            | zero =>
              simp only [Nat.add_zero, Nat.zero_add]
              refine ⟨fun hb => he (by rw [hb]; rfl), ?_⟩
              simpa [msAt] using hs
            | succ k =>
              have h3 := ih3 k (by omega)
              rw [msAt_succ_base, msAt_succ_base,
                show (p + 1) + k = p + (k + 1) from by omega] at h3
              exact h3

lemma msAt_base_mapAt (batch : Nat → List RawJob) :
    ∀ k, msAt batch (mergeBatch [] (batch 1)) 2 k = mapAt batch (k + 1) := by
  intro k
  induction k with
  | zero => rfl
  | succ k ih =>
    show mergeBatch (msAt batch (mergeBatch [] (batch 1)) 2 k) (batch (2 + k))
        = mergeBatch (mapAt batch (k + 1)) (batch (k + 2))
    rw [ih, show 2 + k = k + 2 from by omega]

/-- C4: next-button pagination performs at most `MAX_PAGES` page loads; the
loop only reaches page `q` when the next control was present and enabled,
and only continues past page `q` when its batch was non-empty and merging it
into the aggregate added a new distinct link. -/
theorem next_pagination_termination (batch : Nat → List RawJob) (ctl : Nat → Bool) :
    (nextRun batch ctl).1 ≤ MAX_PAGES
    ∧ (∀ q, 2 ≤ q → q ≤ (nextRun batch ctl).1 → ctl q = true)
    ∧ (∀ q, 2 ≤ q → q + 1 ≤ (nextRun batch ctl).1 →
        batch q ≠ [] ∧ (mapAt batch q).length ≠ (mapAt batch (q - 1)).length) := by
  obtain ⟨h1, h2, h3⟩ :=
    nextLoop_spec batch ctl (MAX_PAGES - 1) 2 (mergeBatch [] (batch 1))
  have hrun : (nextRun batch ctl).1
      = (nextLoop batch ctl (mergeBatch [] (batch 1)) 2 (MAX_PAGES - 1)).1 + 1 := rfl
  refine ⟨?_, ?_, ?_⟩
  · rw [hrun]
    have hM : (0:Nat) < MAX_PAGES := by decide
    omega
  · intro q hq hle
    rw [hrun] at hle
    have hk := h2 (q - 2) (by omega)
    rwa [show 2 + (q - 2) = q from by omega] at hk
  · intro q hq hle
    rw [hrun] at hle
    have hk := h3 (q - 2) (by omega)
    rw [msAt_base_mapAt, msAt_base_mapAt,
      show 2 + (q - 2) = q from by omega,
      show q - 2 + 1 + 1 = q from by omega,
      show q - 2 + 1 = q - 1 from by omega] at hk
    exact hk

/-- Witness for C4: with an always-enabled control, one new job on pages 1
and 2 and an empty page 3, the loop continued past page 2 because its batch
was non-empty and added a new link. -/
theorem next_pagination_termination_witness :
    batchW 2 ≠ [] ∧ (mapAt batchW 2).length ≠ (mapAt batchW 1).length :=
  (next_pagination_termination batchW ctlW).2.2 2 (by decide) (by decide)

/-- C5 (amended to the `part_000`/`part_001` variants): when no job-link
anchor appears within the bounded content-visible wait, the page extractor
returns the empty sequence — the no-more-pages signal — rather than
raising. -/
theorem scrapePage_timeout_empty (anchors : List Anchor) :
    scrapePage000 false anchors = [] := rfl

/-- C5 counterexample: the claim covers every page load of every variant,
but `src/index.js`'s `scrapePage` raises on the content-visible timeout
(`page.waitForSelector` without a catch) instead of returning an empty
sequence, so there the run aborts. -/
theorem scrapePageIndex_timeout_raises :
    scrapePageIndex false [] = Except.error () := rfl

lemma countNonWS_collapseAux (l : List Char) :
    ∀ b, countNonWS (collapseAux b l) = countNonWS l := by
  induction l with
  | nil => intro b; rfl
  | cons c cs ih =>
    intro b
    have hsp : ws ' ' = true := rfl
    by_cases hc : ws c = true
    · cases b with
      | true =>
        simp only [collapseAux, hc, if_true]
        have h := ih true
        unfold countNonWS at h ⊢
        rw [List.countP_cons, h]
        simp [hc]
      | false =>
        simp only [collapseAux, hc, if_true, Bool.false_eq_true, if_false]
        have h := ih true
        unfold countNonWS at h ⊢
        rw [List.countP_cons, List.countP_cons, h]
        simp [hc, hsp]
    · simp only [collapseAux, hc, Bool.false_eq_true, if_false]
      have h := ih false
      unfold countNonWS at h ⊢
      rw [List.countP_cons, List.countP_cons, h]

lemma countNonWS_dropWhile (l : List Char) :
    countNonWS (l.dropWhile ws) = countNonWS l := by
  induction l with
  | nil => rfl
  | cons c cs ih =>
    by_cases hc : ws c = true
    · rw [List.dropWhile_cons_of_pos hc]
      rw [ih]
      unfold countNonWS
      rw [List.countP_cons]
      simp [hc]
    · rw [List.dropWhile_cons_of_neg (by simpa using hc)]

lemma countNonWS_reverse (l : List Char) : countNonWS l.reverse = countNonWS l := by
  induction l with
  | nil => rfl
  | cons c cs ih =>
    rw [List.reverse_cons]
    simp [countNonWS, List.countP_append, List.countP_cons] at *

lemma countNonWS_rdropWhile (l : List Char) :
    countNonWS (List.rdropWhile ws l) = countNonWS l := by
  rw [List.rdropWhile, countNonWS_reverse, countNonWS_dropWhile, countNonWS_reverse]

lemma countNonWS_normChars (l : List Char) :
    countNonWS (normChars l) = countNonWS l := by
  unfold normChars collapseWS
  rw [countNonWS_rdropWhile, countNonWS_dropWhile, countNonWS_collapseAux]

lemma stringMk_eq_empty_iff (l : List Char) : String.mk l = "" ↔ l = [] := by
  constructor
  · intro h; exact congrArg String.data h
  · intro h; subst h; rfl

lemma countNonWS_pos_of_trim_ne {t : String} (h : jsTrimStr t ≠ "") :
    0 < countNonWS (jsTrimStr t).data := by
  have hne : List.rdropWhile ws (t.data.dropWhile ws) ≠ [] := by
    intro hnil
    apply h
    show String.mk (trimChars t.data) = ""
    rw [stringMk_eq_empty_iff]
    exact hnil
  have hz : t.data.dropWhile ws ≠ [] := by
    intro hz0
    apply hne
    rw [hz0]
    simp [List.rdropWhile]
  show 0 < countNonWS (List.rdropWhile ws (t.data.dropWhile ws))
  rw [countNonWS_rdropWhile]
  cases hc : t.data.dropWhile ws with
  | nil => exact absurd hc hz
  | cons c rest =>
    have hcw : ws c = false := headNotWS_dropWhile t.data c (by rw [hc]; rfl)
    unfold countNonWS
    rw [List.countP_cons]
    simp [hcw]

lemma normStr_trim_ne {t : String} (h : jsTrimStr t ≠ "") :
    normStr (jsTrimStr t) ≠ "" := by
  intro h0
  have hc : countNonWS (normChars (jsTrimStr t).data) = countNonWS (jsTrimStr t).data :=
    countNonWS_normChars _
  have hpos := countNonWS_pos_of_trim_ne h
  have hnil : normChars (jsTrimStr t).data = [] := (stringMk_eq_empty_iff _).mp h0
  rw [hnil] at hc
  have hz : countNonWS ([] : List Char) = 0 := rfl
  omega

lemma extract_fold_prop (as : List Anchor) :
    ∀ m : JobMap,
      (∀ j ∈ m.map Prod.snd,
        j.href ≠ "" ∧ (∃ t, j.title = jsTrimStr t) ∧ j.title ≠ "") →
      ∀ j ∈ (as.foldl extractStep m).map Prod.snd,
        j.href ≠ "" ∧ (∃ t, j.title = jsTrimStr t) ∧ j.title ≠ "" := by
  induction as with
  | nil => intro m hm; exact hm
  | cons a as ih =>
    intro m hm
    apply ih
    intro j hj
    cases ht : a.text.map jsTrimStr with
    | none =>
      rw [show extractStep m a = m from by unfold extractStep; rw [ht]] at hj
      exact hm j hj
    | some t =>
      by_cases hcond : a.href ≠ "" ∧ t ≠ ""
      · rw [show extractStep m a = mapSet m a.href
            { title := t, href := a.href, location := pick a.location,
              category := pick a.category, team := pick a.team } from by
          unfold extractStep
          rw [ht]
          show (if a.href ≠ "" ∧ t ≠ "" then _ else m) = _
          rw [if_pos hcond]] at hj
        rcases mem_values_mapSet hj with h | h
        · subst h
          obtain ⟨t0, _, ht0⟩ := Option.map_eq_some'.mp ht
          exact ⟨hcond.1, ⟨t0, ht0.symm⟩, hcond.2⟩
        · exact hm j h
      · rw [show extractStep m a = m from by
          unfold extractStep
          rw [ht]
          show (if a.href ≠ "" ∧ t ≠ "" then _ else m) = m
          rw [if_neg hcond]] at hj
        exact hm j hj

lemma mem_values_mergeBatch {j : RawJob} (batch : List RawJob) :
    ∀ m : JobMap, j ∈ (mergeBatch m batch).map Prod.snd →
      j ∈ batch ∨ j ∈ m.map Prod.snd := by
  induction batch with
  | nil => intro m h; exact Or.inr h
  | cons b batch ih =>
    intro m h
    rcases ih (mapSet m b.href b) h with h' | h'
    · exact Or.inl (List.mem_cons_of_mem b h')
    · rcases mem_values_mapSet h' with h'' | h''
      · exact Or.inl (h'' ▸ List.mem_cons_self b batch)
      · exact Or.inr h''

lemma mem_values_aggregate {j : RawJob} (batches : List (List RawJob)) :
    j ∈ (aggregate batches).map Prod.snd → j ∈ batches.flatten := by
  suffices h : ∀ (bs : List (List RawJob)) (m : JobMap),
      j ∈ (bs.foldl mergeBatch m).map Prod.snd →
        j ∈ bs.flatten ∨ j ∈ m.map Prod.snd by
    intro hj
    rcases h batches [] hj with h' | h'
    · exact h'
    · simp at h'
  intro bs
  induction bs with
  | nil => intro m h; exact Or.inr h
  | cons b bs ih =>
    intro m h
    rcases ih (mergeBatch m b) h with h' | h'
    · exact Or.inl (by rw [List.flatten_cons]; exact List.mem_append_right b h')
    · rcases mem_values_mergeBatch b m h' with h'' | h''
      · exact Or.inl (by rw [List.flatten_cons]; exact List.mem_append_left _ h'')
      · exact Or.inr h''

/-- C10: an anchor with an empty resolved URL or an empty visible title is
silently excluded during extraction, and consequently every record of the
snapshot built from extracted pages has a non-empty link and a non-empty
title (other fields may be empty). -/
theorem extraction_nonempty_link_title (anchorPages : List (List Anchor)) (now : Nat) :
    (∀ page ∈ anchorPages, ∀ j ∈ pageExtract page, j.href ≠ "" ∧ j.title ≠ "")
    ∧ (∀ oj ∈ (mkPayload now (aggregate (anchorPages.map pageExtract))).jobs,
        oj.href ≠ "" ∧ oj.title ≠ "") := by
  have hP : ∀ page : List Anchor, ∀ j ∈ pageExtract page,
      j.href ≠ "" ∧ (∃ t, j.title = jsTrimStr t) ∧ j.title ≠ "" := by
    intro page
    unfold pageExtract
    exact extract_fold_prop page [] (by simp)
  constructor
  · intro page _ j hj
    obtain ⟨h1, _, h3⟩ := hP page j hj
    exact ⟨h1, h3⟩
  · intro oj hoj
    simp only [mkPayload, List.map_map, List.mem_map, Function.comp] at hoj
    obtain ⟨kv, hkv, rfl⟩ := hoj
    have hj : kv.2 ∈ (aggregate (anchorPages.map pageExtract)).map Prod.snd :=
      List.mem_map_of_mem Prod.snd hkv
    have hjoin := mem_values_aggregate _ hj
    rw [List.mem_flatten] at hjoin
    obtain ⟨l, hl, hjl⟩ := hjoin
    rw [List.mem_map] at hl
    obtain ⟨page, _, rfl⟩ := hl
    obtain ⟨h1, ⟨t0, ht0⟩, h3⟩ := hP page kv.2 hjl
    constructor
    · simpa [normalizeJob] using h1
    · show (normalizeJob kv.2).title ≠ ""
      simp only [normalizeJob]
      rw [show normStr kv.2.title = normStr (jsTrimStr t0) from by rw [← ht0]]
      exact normStr_trim_ne (ht0 ▸ h3)

/-- Witness for C10 at a one-anchor page. -/
theorem extraction_nonempty_link_title_witness :
    (normalizeJob rawW).href ≠ "" ∧ (normalizeJob rawW).title ≠ "" :=
  (extraction_nonempty_link_title [[anchorW]] 0).2 _ (by decide)

lemma findRow_upsertRow_self (s : Store) (r : PRow) :
    findRow (upsertRow s r) r.url = some r := by
  induction s with
  | nil =>
    show findRow [r] r.url = some r
    unfold findRow
    rw [List.find?_cons_of_pos _ (by simp)]
  | cons p s ih =>
    by_cases hp : p.url = r.url
    · rw [show upsertRow (p :: s) r = r :: s from by simp [upsertRow, hp]]
      unfold findRow
      rw [List.find?_cons_of_pos _ (by simp)]
    · rw [show upsertRow (p :: s) r = p :: upsertRow s r from by simp [upsertRow, hp]]
      unfold findRow
      rw [List.find?_cons_of_neg _ (by simpa using hp)]
      exact ih

lemma findRow_upsertRow_ne (s : Store) (r : PRow) (u : String) (h : u ≠ r.url) :
    findRow (upsertRow s r) u = findRow s u := by
  induction s with
  | nil =>
    show findRow [r] u = findRow [] u
    unfold findRow
    rw [List.find?_cons_of_neg _ (by simpa using fun hh : r.url = u => h hh.symm)]
  | cons p s ih =>
    by_cases hp : p.url = r.url
    · rw [show upsertRow (p :: s) r = r :: s from by simp [upsertRow, hp]]
      unfold findRow
      rw [List.find?_cons_of_neg _ (by simpa using fun hh : r.url = u => h hh.symm),
        List.find?_cons_of_neg _ (by
          simpa using fun hh : p.url = u => h (hh ▸ hp :  u = r.url))]
    · rw [show upsertRow (p :: s) r = p :: upsertRow s r from by simp [upsertRow, hp]]
      by_cases hpu : p.url = u
      · unfold findRow
        rw [List.find?_cons_of_pos _ (by simpa using hpu),
          List.find?_cons_of_pos _ (by simpa using hpu)]
      · unfold findRow
        rw [List.find?_cons_of_neg _ (by simpa using hpu),
          List.find?_cons_of_neg _ (by simpa using hpu)]
        exact ih

lemma findRow_upsertRows_ne (rows : List PRow) :
    ∀ (s : Store) (u : String), (∀ r ∈ rows, r.url ≠ u) →
      findRow (upsertRows s rows) u = findRow s u := by
  induction rows with
  | nil => intro s u _; rfl
  | cons r rows ih =>
    intro s u hall
    show findRow (upsertRows (upsertRow s r) rows) u = _
    rw [ih (upsertRow s r) u (fun r' hr' => hall r' (List.mem_cons_of_mem r hr'))]
    exact findRow_upsertRow_ne s r u
      (fun he => hall r (List.mem_cons_self r rows) he.symm)

lemma findRow_upsertRows_mem (rows : List PRow) :
    ∀ (s : Store) (u : String), (∃ r ∈ rows, r.url = u) →
      ∃ p, findRow (upsertRows s rows) u = some p ∧ p ∈ rows ∧ p.url = u := by
  induction rows with
  | nil =>
    intro s u h
    obtain ⟨r, hr, _⟩ := h
    exact absurd hr (List.not_mem_nil r)
  | cons r rows ih =>
    intro s u h
    by_cases hrest : ∃ r' ∈ rows, r'.url = u
    · obtain ⟨p, hp1, hp2, hp3⟩ := ih (upsertRow s r) u hrest
      exact ⟨p, hp1, List.mem_cons_of_mem r hp2, hp3⟩
    · have hru : r.url = u := by
        obtain ⟨r', hr', hu⟩ := h
        rcases List.mem_cons.mp hr' with h' | h'
        · subst h'; exact hu
        · exact absurd ⟨r', h', hu⟩ hrest
      have hnone : ∀ r' ∈ rows, r'.url ≠ u := by
        intro r' hr' he
        exact hrest ⟨r', hr', he⟩
      refine ⟨r, ?_, List.mem_cons_self r rows, hru⟩
      show findRow (upsertRows (upsertRow s r) rows) u = some r
      rw [findRow_upsertRows_ne rows (upsertRow s r) u hnone, ← hru]
      exact findRow_upsertRow_self s r

lemma mem_upsertRow_of_ne {p : PRow} {s : Store} (r : PRow) (hp : p ∈ s)
    (hne : p.url ≠ r.url) : p ∈ upsertRow s r := by
  induction s with
  | nil => exact absurd hp (List.not_mem_nil p)
  | cons q s ih =>
    by_cases hq : q.url = r.url
    · rw [show upsertRow (q :: s) r = r :: s from by simp [upsertRow, hq]]
      rcases List.mem_cons.mp hp with h | h
      · subst h; exact absurd hq hne
      · exact List.mem_cons_of_mem r h
    · rw [show upsertRow (q :: s) r = q :: upsertRow s r from by simp [upsertRow, hq]]
      rcases List.mem_cons.mp hp with h | h
      · subst h; exact List.mem_cons_self p _
      · exact List.mem_cons_of_mem q (ih h)

lemma mem_upsertRows_of_ne {p : PRow} (rows : List PRow) :
    ∀ s : Store, p ∈ s → (∀ r ∈ rows, p.url ≠ r.url) → p ∈ upsertRows s rows := by
  induction rows with
  | nil => intro s hp _; exact hp
  | cons r rows ih =>
    intro s hp hall
    exact ih (upsertRow s r)
      (mem_upsertRow_of_ne r hp (hall r (List.mem_cons_self r rows)))
      (fun r' hr' => hall r' (List.mem_cons_of_mem r hr'))

lemma findRow_deactivate (T : Nat) (s : Store) (u : String) :
    findRow (deactivate T s) u
      = (findRow s u).map (fun p =>
          if p.is_active = true ∧ p.updated_at < T then { p with is_active := false }
          else p) := by
  induction s with
  | nil => rfl
  | cons p s ih =>
    have hgu : (if p.is_active = true ∧ p.updated_at < T
        then { p with is_active := false } else p).url = p.url := by
      by_cases hcond : p.is_active = true ∧ p.updated_at < T <;> simp [hcond]
    show findRow ((if p.is_active = true ∧ p.updated_at < T
        then { p with is_active := false } else p) :: deactivate T s) u = _
    by_cases hpu : p.url = u
    · unfold findRow
      rw [List.find?_cons_of_pos _ (by
          by_cases hcond : p.is_active = true ∧ p.updated_at < T <;>
            simp [hcond, hpu]),
        List.find?_cons_of_pos _ (by simpa using hpu)]
      rfl
    · unfold findRow
      rw [List.find?_cons_of_neg _ (by
          by_cases hcond : p.is_active = true ∧ p.updated_at < T <;>
            simp [hcond, hpu]),
        List.find?_cons_of_neg _ (by simpa using hpu)]
      exact ih

lemma mem_deactivate_active {p : PRow} {s : Store} (T : Nat) (hp : p ∈ s)
    (ha : p.is_active = true) (hu : p.updated_at < T) :
    { p with is_active := false } ∈ deactivate T s := by
  unfold deactivate
  apply List.mem_map.mpr
  refine ⟨p, hp, ?_⟩
  show (if p.is_active = true ∧ p.updated_at < T
      then { p with is_active := false } else p) = { p with is_active := false }
  rw [if_pos ⟨ha, hu⟩]

lemma mem_deactivate_stale {p : PRow} {s : Store} (T : Nat) (hp : p ∈ s)
    (h : ¬(p.is_active = true ∧ p.updated_at < T)) : p ∈ deactivate T s := by
  unfold deactivate
  apply List.mem_map.mpr
  refine ⟨p, hp, ?_⟩
  show (if p.is_active = true ∧ p.updated_at < T
      then { p with is_active := false } else p) = p
  rw [if_neg h]

lemma chunksGo_flatten : ∀ (fuel : Nat) (rows : List PRow), rows.length ≤ fuel →
    (chunksGo fuel rows).flatten = rows := by
  intro fuel
  induction fuel with
  | zero =>
    intro rows h
    have hnil : rows = [] := List.length_eq_zero.mp (Nat.le_zero.mp h)
    subst hnil
    rfl
  | succ fuel ih =>
    intro rows h
    cases rows with
    | nil => rfl
    | cons r rest =>
      show ((r :: rest).take 500 :: chunksGo fuel ((r :: rest).drop 500)).flatten
          = r :: rest
      rw [List.flatten_cons, ih ((r :: rest).drop 500) (by
        rw [List.length_drop]
        simp only [List.length_cons] at h ⊢
        omega)]
      exact List.take_append_drop 500 (r :: rest)

lemma chunks500_flatten (rows : List PRow) : (chunks500 rows).flatten = rows :=
  chunksGo_flatten rows.length rows (Nat.le_refl _)

lemma runChunks_none (chunks : List (List PRow)) :
    ∀ (s : Store) (i : Nat),
      runChunks (fun _ => none) s chunks i = (none, upsertRows s chunks.flatten) := by
  induction chunks with
  | nil => intro s i; rfl
  | cons c rest ih =>
    intro s i
    show runChunks (fun _ => none) (upsertRows s c) rest (i + 1) = _
    rw [ih, List.flatten_cons]
    unfold upsertRows
    rw [List.foldl_append]

lemma runChunks_err (errs : Nat → Option DbErr) (e : DbErr) :
    ∀ (chunks : List (List PRow)) (i : Nat) (s : Store) (i0 : Nat),
      i < chunks.length → errs (i0 + i) = some e → (∀ j < i, errs (i0 + j) = none) →
      runChunks errs s chunks i0 = (some e, upsertRows s ((chunks.take i).flatten)) := by
  intro chunks
  induction chunks with
  | nil =>
    intro i s i0 hi
    exact absurd hi (by simp)
  | cons c rest ih =>
    intro i s i0 hi he hprev
    cases i with
    | zero =>
      have h0 : errs i0 = some e := by simpa using he
      simp only [runChunks, h0]
      rfl
    | succ i =>
      have h0 : errs i0 = none := by simpa using hprev 0 (Nat.succ_pos i)
      simp only [runChunks, h0]
      rw [ih i (upsertRows s c) (i0 + 1) (by simpa using hi)
        (by rw [show i0 + 1 + i = i0 + (i + 1) from by omega]; exact he)
        (fun j hj => by
          rw [show i0 + 1 + j = i0 + (j + 1) from by omega]
          exact hprev (j + 1) (by omega))]
      rw [List.take_succ_cons, List.flatten_cons]
      unfold upsertRows
      rw [List.foldl_append]

/-- C1 (amended to the `part_000` variant): after an error-free
`updateDatabase` run with watermark `T = payload.scraped_at`: the final
store is literally the watermark-gated deactivation applied after all
upserts (upsert phase first, deactivation second); every snapshot record's
url is found active with `updated_at = T`; every previously-active row with
url outside the snapshot and `updated_at < T` occurs deactivated; and every
row with `updated_at ≥ T` and url outside the snapshot is kept unchanged. -/
theorem updateDatabase_reconciliation (payload : Payload) (s : Store) :
    (updateDatabase000 (fun _ => none) none payload s).2
      = deactivate payload.scraped_at
          (upsertRows s (payload.jobs.map (rowOf payload.scraped_at)))
    ∧ (∀ j ∈ payload.jobs, ∃ p,
        findRow (updateDatabase000 (fun _ => none) none payload s).2 j.href = some p
        ∧ p.is_active = true ∧ p.updated_at = payload.scraped_at)
    ∧ (∀ p ∈ s, p.is_active = true → p.updated_at < payload.scraped_at →
        (∀ j ∈ payload.jobs, j.href ≠ p.url) →
        { p with is_active := false }
          ∈ (updateDatabase000 (fun _ => none) none payload s).2)
    ∧ (∀ p ∈ s, payload.scraped_at ≤ p.updated_at →
        (∀ j ∈ payload.jobs, j.href ≠ p.url) →
        p ∈ (updateDatabase000 (fun _ => none) none payload s).2) := by
  have hfinal : (updateDatabase000 (fun _ => none) none payload s).2
      = deactivate payload.scraped_at
          (upsertRows s (payload.jobs.map (rowOf payload.scraped_at))) := by
    unfold updateDatabase000
    rw [runChunks_none, chunks500_flatten]
  refine ⟨hfinal, ?_, ?_, ?_⟩
  · intro j hj
    rw [hfinal, findRow_deactivate]
    have hmem : ∃ r ∈ payload.jobs.map (rowOf payload.scraped_at), r.url = j.href :=
      ⟨rowOf payload.scraped_at j, List.mem_map_of_mem _ hj, rfl⟩
    obtain ⟨p, hp1, hp2, _⟩ := findRow_upsertRows_mem _ s j.href hmem
    obtain ⟨j', _, rfl⟩ := List.mem_map.mp hp2
    refine ⟨rowOf payload.scraped_at j', ?_, by simp [rowOf], by simp [rowOf]⟩
    rw [hp1, Option.map_some']
    rw [if_neg (by simp [rowOf])]
  · intro p hp ha hu hnone
    rw [hfinal]
    apply mem_deactivate_active _ _ ha hu
    apply mem_upsertRows_of_ne _ s hp
    intro r hr
    obtain ⟨j, hj, rfl⟩ := List.mem_map.mp hr
    exact fun he => hnone j hj (by simpa [rowOf] using he.symm)
  · intro p hp hT hnone
    rw [hfinal]
    apply mem_deactivate_stale
    · apply mem_upsertRows_of_ne _ s hp
      intro r hr
      obtain ⟨j, hj, rfl⟩ := List.mem_map.mp hr
      exact fun he => hnone j hj (by simpa [rowOf] using he.symm)
    · intro hcond
      exact absurd hcond.2 (Nat.not_lt.mpr hT)

/-- Witness for C1: jobs B and C at watermark 2 against a store holding
active rows A and B, both with `updated_at = 1`. -/
theorem updateDatabase_reconciliation_witness :
    (∃ p, findRow (updateDatabase000 (fun _ => none) none payloadBC
        [rowAold, rowB]).2 ojB.href = some p
      ∧ p.is_active = true ∧ p.updated_at = payloadBC.scraped_at)
    ∧ { rowAold with is_active := false }
        ∈ (updateDatabase000 (fun _ => none) none payloadBC [rowAold, rowB]).2 :=
  ⟨(updateDatabase_reconciliation payloadBC [rowAold, rowB]).2.1 ojB (by decide),
   (updateDatabase_reconciliation payloadBC [rowAold, rowB]).2.2.1 rowAold
     (by decide) (by decide) (by decide) (by decide)⟩

/-- C1 counterexample: the claim also covers `src/index.js`'s
`updateDatabase`, which first unconditionally deactivates every active row
and stamps upserts with per-call clock readings.  With an empty snapshot of
watermark 5 and a stored active row whose `updated_at = 7 ≥ 5` — which the
claim requires untouched — that variant leaves the row deactivated. -/
theorem updateDatabaseIndex_violates_watermark :
    updateDatabaseIndex (fun _ => 5) emptyPayload [rowA]
      = [{ rowA with is_active := false }]
    ∧ emptyPayload.scraped_at ≤ rowA.updated_at
    ∧ ({ rowA with is_active := false }) ≠ rowA :=
  ⟨rfl, by decide, by decide⟩

/-- C2: if chunk `i` of the chunked upsert returns an error and every chunk
before it succeeded, `updateDatabase` throws exactly that error: only the
chunks before `i` are committed, the deactivation pass never runs, and the
run exits 1. -/
theorem chunk_error_aborts (errs : Nat → Option DbErr) (deactErr : Option DbErr)
    (payload : Payload) (s : Store) (i : Nat) (e : DbErr)
    (hi : i < (chunks500 (payload.jobs.map (rowOf payload.scraped_at))).length)
    (he : errs i = some e)
    (hprev : ∀ j < i, errs j = none) :
    (updateDatabase000 errs deactErr payload s).1 = some e
    ∧ (updateDatabase000 errs deactErr payload s).2
        = upsertRows s
            (((chunks500 (payload.jobs.map (rowOf payload.scraped_at))).take i).flatten)
    ∧ exitOf (updateDatabase000 errs deactErr payload s) = 1 := by
  have hrun := runChunks_err errs e
    (chunks500 (payload.jobs.map (rowOf payload.scraped_at))) i s 0 hi
    (by simpa using he) (fun j hj => by simpa using hprev j hj)
  have hdb : updateDatabase000 errs deactErr payload s
      = (some e, upsertRows s
          (((chunks500 (payload.jobs.map (rowOf payload.scraped_at))).take i).flatten)) := by
    unfold updateDatabase000
    rw [hrun]
  rw [hdb]
  exact ⟨rfl, rfl, rfl⟩

/-- Witness for C2: a one-job snapshot whose single chunk errors with 3. -/
theorem chunk_error_aborts_witness :
    (updateDatabase000 (fun _ => some 3) none payloadW []).1 = some 3
    ∧ exitOf (updateDatabase000 (fun _ => some 3) none payloadW []) = 1 :=
  ⟨(chunk_error_aborts (fun _ => some 3) none payloadW [] 0 3 (by decide) rfl
      (fun j hj => absurd hj (Nat.not_lt_zero j))).1,
   (chunk_error_aborts (fun _ => some 3) none payloadW [] 0 3 (by decide) rfl
      (fun j hj => absurd hj (Nat.not_lt_zero j))).2.2⟩

/-- C6 (amended to the Supabase variants, `src/index.js` and `part_000`): a
missing or empty store credential makes the script exit 1 at module load,
before any page is scraped. -/
theorem missing_credentials_startup_fatal (url key : Option String)
    (pages : Nat → List RawJob) (errs : Nat → Option DbErr)
    (deactErr : Option DbErr) (now : Nat) (s : Store)
    (h : truthy url = false ∨ truthy key = false) :
    runSupabase000 url key pages errs deactErr now s
      = { exitCode := 1, pagesScraped := 0 } := by
  unfold runSupabase000
  rw [if_pos h]

/-- Witness for C6 with both credentials absent. -/
theorem missing_credentials_startup_fatal_witness :
    runSupabase000 none none pagesW (fun _ => none) none 0 []
      = { exitCode := 1, pagesScraped := 0 } :=
  missing_credentials_startup_fatal none none pagesW (fun _ => none) none 0 []
    (Or.inl rfl)

/-- C6 counterexample: the claim also covers the `part_001` sink
credentials, but `postToBolt` checks them only after `scrapeAll` and
`saveJson` have completed: with both credentials missing the run still
performs a page load (one here) before the fatal error — a runtime failure
after the crawl, not a startup one. -/
theorem runBolt_missing_credentials_after_crawl :
    (runBolt none none (fun _ => []) true).exitCode = 1
    ∧ (runBolt none none (fun _ => []) true).pagesScraped = 1 :=
  ⟨rfl, rfl⟩

end JobsScraper
